import Mathlib

/-!
# Verification of the Laufchallenge dashboard data pipeline

A shallow embedding of the data-transformation pipeline of `src/app.py`:
normalization of raw spreadsheet rows, the weekly / group-weekly / cumulative
aggregations, the cascading sidebar filters, the records section and the
leaderboards.  Distances are modelled as rationals; a cell whose parse failed
(pandas coerce producing NaN/NaT) is modelled as `none`.
-/

namespace Lauf

/-- A normalized data row, after the type coercions of `transform_data`
(`app.py` lines 83-86): `KM` parsed as a number (`none` = NaN), `Datum`
parsed as a day/month/year date (`none` = NaT), `KW` parsed as an integer
week number (`none` = NaN), plus the group and runner-name labels. -/
structure Row where
  km : Option ℚ
  datum : Option (Nat × Nat × Nat)
  kw : Option Int
  gruppe : String
  name : String
deriving DecidableEq

/-- `CHALLENGE_KWS` (`app.py` line 21): the canonical ordered Challenge
Week Set, wrapping the year boundary. -/
def CHALLENGE_KWS : List Int := [45, 46, 47, 48, 49, 50, 51, 52, 1, 2, 3, 4, 5, 6, 7, 8, 9, 10]

/-- `CHALLENGE_KWS_STR` (`app.py` line 22): the string forms of the canonical weeks. -/
def CHALLENGE_KWS_STR : List String := CHALLENGE_KWS.map toString

/-- The numeric value the distance of a row contributes to sums: pandas `sum`
skips NaN, i.e. a missing distance contributes `0`. -/
def kmVal (r : Row) : ℚ := r.km.getD 0

/-- Sum of the `KM` column over a list of rows (NaN counted as 0). -/
def sumKm (l : List Row) : ℚ := (l.map kmVal).sum

/-- The string form of the week column, `df[KW].astype(str)`
(`app.py` lines 85-86).  `pd.to_numeric(..., downcast=integer)` yields an
integer dtype only when every cell parses; if any cell is NaN the column
stays float, so every parsed week prints with a trailing `.0` and the NaN
cells print as the string `nan`.  The string form of a row therefore
depends on the whole column. -/
def kwStrOf (rows : List Row) (r : Row) : String :=
  if rows.all (fun x => x.kw.isSome) then
    match r.kw with
    | some n => toString n
    | none => "nan"
  else
    match r.kw with
    | some n => toString n ++ ".0"
    | none => "nan"

/-- `weekly_summary` (`app.py` line 91): total distance of the rows whose
week string equals `w` (`df.groupby(KW_STR)[KM].sum()` read as a
total function, absent key = 0). -/
def weeklyTotal (rows : List Row) (w : String) : ℚ :=
  sumKm (rows.filter (fun r => kwStrOf rows r == w))

/-- `df_filtered_kws` (`app.py` line 98): the rows whose week string lies in
the Challenge Week Set. -/
def challengeRows (rows : List Row) : List Row :=
  rows.filter (fun r => CHALLENGE_KWS_STR.contains (kwStrOf rows r))

/-- The summed distance of group `g` in week `w` inside the challenge-week
restriction (the `KM` column of `group_weekly`, `app.py` line 108). -/
def groupWeekKm (rows : List Row) (g : String) (w : String) : ℚ :=
  sumKm ((challengeRows rows).filter (fun r => r.gruppe == g && kwStrOf rows r == w))

/-- The weeks of the Challenge Week Set, in canonical order, in which group
`g` has at least one (challenge) row: the observed categories of the
`groupby([Gruppe, KW_STR], observed=True)` for `g`. -/
def observedWeeks (rows : List Row) (g : String) : List String :=
  CHALLENGE_KWS_STR.filter
    (fun w => (challengeRows rows).any (fun r => r.gruppe == g && kwStrOf rows r == w))

/-- The code-point sequence of a string: the key by which Python compares
strings (lexicographically by code point). -/
def strKey (s : String) : List ℕ := s.data.map (fun c => c.toNat)

/-- The Python string ordering: lexicographic comparison of code points. -/
def strLe (a b : String) : Prop := strKey a ≤ strKey b

instance : DecidableRel strLe := fun a b => inferInstanceAs (Decidable (strKey a ≤ strKey b))

instance : IsTotal String strLe := ⟨fun a b => le_total (strKey a) (strKey b)⟩

instance : IsTrans String strLe := ⟨fun _ _ _ h h' => le_trans h h'⟩

/-- Ascending insertion sort on strings (Python `sorted`). -/
def sortStrings (l : List String) : List String := l.insertionSort strLe

/-- The distinct groups of the challenge-week-restricted table, ascending:
the outer keys of `group_weekly` (pandas `groupby` sorts its keys). -/
def groupsSorted (rows : List Row) : List String :=
  sortStrings (((challengeRows rows).map Row.gruppe).dedup)

/-- One row of `group_weekly` (`app.py` lines 108-114): group, week string,
weekly `KM`, and the running cumulative `Kumulierte_KM`. -/
structure GWEntry where
  gruppe : String
  kwStr : String
  km : ℚ
  kumKm : ℚ
deriving DecidableEq

/-- The block of `group_weekly` rows for one group: walks its observed
weeks in canonical order, carrying the running cumulative sum
(`groupby(Gruppe)[KM].cumsum()`, `app.py` line 114). -/
def cumEntriesAux (rows : List Row) (g : String) (acc : ℚ) : List String → List GWEntry
  | [] => []
  | w :: ws =>
    ⟨g, w, groupWeekKm rows g w, acc + groupWeekKm rows g w⟩ ::
      cumEntriesAux rows g (acc + groupWeekKm rows g w) ws

/-- Concatenation of per-element lists (the row blocks of a grouped frame). -/
def catMap (f : α → List β) : List α → List β
  | [] => []
  | a :: l => f a ++ catMap f l

/-- `group_weekly` (`app.py` lines 97-114): per (group, challenge week)
summed distance with a per-group cumulative sum, rows sorted by group and
then by canonical week order. -/
def groupWeeklyTable (rows : List Row) : List GWEntry :=
  catMap (fun g => cumEntriesAux rows g 0 (observedWeeks rows g)) (groupsSorted rows)

/-- The per-week total distance as recorded in `group_weekly`, summed over
every group: the week-`w` slice of the group table. -/
def tableWeekKm (rows : List Row) (w : String) : ℚ :=
  (((groupWeeklyTable rows).filter (fun e => e.kwStr == w)).map GWEntry.km).sum

/-- `group_bar_data` entry of one group for the unfiltered period
(`app.py` lines 286-288): total distance of the group over the whole
table (a group with no rows gets the reindex fill value 0, which the
empty filter also yields). -/
def groupTotals (rows : List Row) (g : String) : ℚ :=
  sumKm (rows.filter (fun r => r.gruppe == g))

/-- The week-filter selection: the `Gesamt` sentinel or a concrete week. -/
inductive KwSel
  | gesamt
  | week (n : Int)
deriving DecidableEq

/-- `df_filtered` (`app.py` lines 144-177): the three cascading sidebar
filters applied in order (group, runner, week); a sentinel selection
(`Alle`, `Alle`, `Gesamt`) leaves the rows unrestricted, a concrete
selection restricts by equality on the corresponding column. -/
def applyFilters (rows : List Row) (g r : String) (w : KwSel) : List Row :=
  let s1 := if g = "Alle" then rows else rows.filter (fun x => x.gruppe == g)
  let s2 := if r = "Alle" then s1 else s1.filter (fun x => x.name == r)
  match w with
  | .gesamt => s2
  | .week n => s2.filter (fun x => x.kw == some n)

/-- The group-filter stage on its own (`app.py` lines 152-153). -/
def groupFiltered (rows : List Row) (g : String) : List Row :=
  if g = "Alle" then rows else rows.filter (fun x => x.gruppe == g)

/-- The option list of the group selector (`app.py` lines 149-150): `Alle`
followed by the sorted distinct groups of the full table. -/
def groupOptions (rows : List Row) : List String :=
  "Alle" :: sortStrings ((rows.map Row.gruppe).dedup)

/-- The option list of the runner selector (`app.py` lines 158-159): `Alle`
followed by the sorted distinct names of the group-filtered table. -/
def runnerOptions (rows : List Row) (g : String) : List String :=
  "Alle" :: sortStrings (((groupFiltered rows g).map Row.name).dedup)

/-- The option list of the week selector (`app.py` line 167):
`[Gesamt] + CHALLENGE_KWS`, a constant independent of the table. -/
def kwOptions : List (Option Int) := none :: CHALLENGE_KWS.map some

/-- Modelled from the spec: the week selector option list as the claim
describes it - the `Gesamt` sentinel followed by the sorted distinct
week values present in the group- and runner-filtered table.  Stated only
to be compared against `kwOptions`, the option list the code builds. -/
def kwOptionsPerClaim (rows : List Row) (g r : String) : List (Option Int) :=
  none ::
    (((applyFilters rows g r KwSel.gesamt).filterMap Row.kw).dedup.insertionSort
      (fun a b => a ≤ b)).map some

/-- `runner_runs` (`app.py` line 253), `df.groupby(Name)[KM].count()`:
pandas `count` counts the NON-NULL `KM` cells among the rows of each name, so a
row whose distance failed to parse is not counted. -/
def runnerRuns (rows : List Row) (n : String) : Nat :=
  ((rows.filter (fun r => r.name == n)).filter (fun r => r.km.isSome)).length

/-- The distinct runner names (the keys of the `groupby(Name)`), ascending. -/
def namesSorted (rows : List Row) : List String :=
  sortStrings ((rows.map Row.name).dedup)

/-- `most_runs` (`app.py` line 254): the maximum of the per-name tallies. -/
def mostRuns (rows : List Row) : Nat :=
  ((namesSorted rows).map (fun n => runnerRuns rows n)).foldr max 0

/-- `runners_with_max_runs` (`app.py` line 256): every name whose tally
equals the maximum tally. -/
def runnersWithMaxRuns (rows : List Row) : List String :=
  (namesSorted rows).filter (fun n => runnerRuns rows n == mostRuns rows)

/-- One step of `df[KM].idxmax()`: keep the first row attaining the
maximum `KM`, skipping NaN cells. -/
def betterKm (best : Option Row) (r : Row) : Option Row :=
  match r.km with
  | none => best
  | some q =>
    match best with
    | none => some r
    | some b => if kmVal b < q then some r else some b

/-- `df.loc[df[KM].idxmax()]` (`app.py` line 239): the first row with the
maximum valid distance; `none` when no row has a valid distance (pandas
raises there). -/
def maxKmEntry (rows : List Row) : Option Row := rows.foldl betterKm none

/-- Two-digit zero padding of `strftime`. -/
def pad2 (n : Nat) : String := if n < 10 then "0" ++ toString n else toString n

/-- The records-section computation (`app.py` lines 239-242): the longest
single run with its runner and `strftime` date (format %d.%m.).  `idxmax` on an
all-NaN column raises, and `strftime` on a NaT date raises, so both paths
are error outcomes. -/
def recordsSection (rows : List Row) : Except String (ℚ × String × String) :=
  match maxKmEntry rows with
  | none => Except.error "attempt to get argmax of an empty sequence"
  | some e =>
    match e.datum with
    | none => Except.error "NaTType does not support strftime"
    | some (d, m, _) => Except.ok (kmVal e, e.name, pad2 d ++ "." ++ pad2 m ++ ".")

/-- Descending order on leaderboard rows (rank by total distance). -/
def rankLe (a b : String × ℚ) : Prop := b.2 ≤ a.2

instance : DecidableRel rankLe := fun a b => inferInstanceAs (Decidable (b.2 ≤ a.2))

instance : IsTotal (String × ℚ) rankLe := ⟨fun a b => le_total b.2 a.2⟩

instance : IsTrans (String × ℚ) rankLe := ⟨fun _ _ _ h h' => le_trans h' h⟩

/-- `group_ranking` (`app.py` lines 392-394): per-group totals of the
filtered table, sorted descending by total distance; never truncated. -/
def groupRanking (fRows : List Row) : List (String × ℚ) :=
  ((sortStrings ((fRows.map Row.gruppe).dedup)).map
    (fun g => (g, sumKm (fRows.filter (fun r => r.gruppe == g))))).insertionSort rankLe

/-- The runner ranking before truncation (`app.py` lines 419-421). -/
def runnerRankingFull (fRows : List Row) : List (String × ℚ) :=
  ((sortStrings ((fRows.map Row.name).dedup)).map
    (fun n => (n, sumKm (fRows.filter (fun r => r.name == n))))).insertionSort rankLe

/-- `runner_ranking` (`app.py` line 423): truncated to the top 10. -/
def runnerRanking (fRows : List Row) : List (String × ℚ) :=
  (runnerRankingFull fRows).take 10

/-- The progress-bar scale of a displayed ranking (`app.py` lines 397 and
426): the maximum total in the ranking, or `100` when it is empty. -/
def maxRanked (l : List (String × ℚ)) : ℚ :=
  match l.map Prod.snd with
  | [] => 100
  | v :: vs => vs.foldl max v

/-- `max_group_km` (`app.py` line 397). -/
def maxGroupKm (fRows : List Row) : ℚ := maxRanked (groupRanking fRows)

/-- `max_runner_km` (`app.py` line 426). -/
def maxRunnerKm (fRows : List Row) : ℚ := maxRanked (runnerRanking fRows)

/-! ### Concrete tables used by witnesses and counterexamples -/

/-- Concrete table for the C1 witness: a group with data only in weeks 46 and 1. -/
def c1rows : List Row :=
  [⟨some 5, none, some 46, "X", "A"⟩, ⟨some 2, none, some 1, "X", "A"⟩]

/-- Concrete table for the C2 counterexample: one row in week 20, outside the Challenge Week Set. -/
def c2badRows : List Row := [⟨some 5, none, some 20, "X", "A"⟩]

/-- Concrete table for the C2 witness. -/
def c2rows : List Row :=
  [⟨some 3, none, some 45, "X", "A"⟩, ⟨some 4, none, some 46, "Y", "B"⟩]

/-- Concrete table for C3: runner A has two rows, one with an unparseable distance. -/
def c3rows : List Row :=
  [⟨some 5, some (1, 11, 2024), some 45, "X", "A"⟩,
   ⟨none, some (2, 11, 2024), some 47, "X", "A"⟩,
   ⟨some 2, some (3, 11, 2024), some 45, "X", "B"⟩]

/-- Concrete table for C6: the longest run has an unparseable date. -/
def c6rows : List Row := [⟨some 10, none, some 45, "X", "A"⟩]

/-- Concrete table for the C5 counterexample. -/
def c5badRows : List Row := [⟨some 5, some (1, 11, 2024), some 45, "X", "A"⟩]

/-- Concrete table for the C4 counterexample: group X has a week-20 row outside the Challenge Week Set. -/
def c4badRows : List Row :=
  [⟨some 5, none, some 20, "X", "A"⟩, ⟨some 3, none, some 45, "X", "A"⟩]

/-- Concrete table for the C4 witness. -/
def c4rows : List Row :=
  [⟨some 5, none, some 46, "W", "A"⟩, ⟨some 3, none, some 1, "W", "A"⟩]

/-- Concrete table for the C5 witness. -/
def c5rows : List Row := [⟨some 7, some (5, 11, 2024), some 46, "Y", "B"⟩]

/-- Concrete table for the C7 witness: two runners tied at one run each. -/
def c7rows : List Row :=
  [⟨some 1, none, some 45, "X", "P"⟩, ⟨some 2, none, some 45, "X", "Q"⟩]

/-- Concrete table for the C9 witness. -/
def c9rows : List Row := [⟨some 5, none, some 45, "X", "A"⟩]

/-- Concrete table for the C10 witness: one row with an unparseable week. -/
def c10rows : List Row :=
  [⟨some 4, none, none, "X", "A"⟩, ⟨some 6, none, some 45, "X", "B"⟩]

/-! ### Basic lemmas about sums over rows -/

theorem sumKm_nil : sumKm [] = 0 := rfl

theorem sumKm_cons (r : Row) (l : List Row) : sumKm (r :: l) = kmVal r + sumKm l := by
  simp [sumKm]

theorem sumKm_nonneg {l : List Row} (h : ∀ r ∈ l, 0 ≤ kmVal r) : 0 ≤ sumKm l := by
  refine List.sum_nonneg ?_
  intro x hx
  obtain ⟨r, hr, rfl⟩ := List.mem_map.1 hx
  exact h r hr

theorem sumKm_filter_partition (p : Row → Bool) (l : List Row) :
    sumKm (l.filter p) + sumKm (l.filter (fun r => !(p r))) = sumKm l := by
  induction l with
  | nil => simp [sumKm]
  | cons r l ih =>
    cases hp : p r with
    | true =>
      have h1 : (r :: l).filter p = r :: l.filter p := by simp [List.filter_cons, hp]
      have h2 : (r :: l).filter (fun x => !(p x)) = l.filter (fun x => !(p x)) := by
        simp [List.filter_cons, hp]
      rw [h1, h2, sumKm_cons, sumKm_cons, ← ih]
      ring
    | false =>
      have h1 : (r :: l).filter p = l.filter p := by simp [List.filter_cons, hp]
      have h2 : (r :: l).filter (fun x => !(p x)) = r :: l.filter (fun x => !(p x)) := by
        simp [List.filter_cons, hp]
      rw [h1, h2, sumKm_cons, sumKm_cons, ← ih]
      ring

/-- Summing a keyed column group by group recovers the whole sum, provided
the key list is duplicate-free and covers every row. -/
theorem sum_over_keys (key : Row → String) (G : List String) (l : List Row)
    (hG : G.Nodup) (hl : ∀ r ∈ l, key r ∈ G) :
    (G.map (fun g => sumKm (l.filter (fun r => key r == g)))).sum = sumKm l := by
  induction G generalizing l with
  | nil =>
    cases l with
    | nil => simp [sumKm]
    | cons r t => exact absurd (hl r (by simp)) (by simp)
  | cons g G ih =>
    have hnotg : g ∉ G := (List.nodup_cons.1 hG).1
    have hG' : G.Nodup := (List.nodup_cons.1 hG).2
    have hstep : ∀ g' ∈ G,
        l.filter (fun r => key r == g') =
          (l.filter (fun r => !(key r == g))).filter (fun r => key r == g') := by
      intro g' hg'
      rw [List.filter_filter]
      refine (List.filter_congr ?_)
      intro r _
      cases hk : (key r == g') with
      | false => simp
      | true =>
        have : key r = g' := by simpa using hk
        have hne : (key r == g) = false := by
          refine beq_eq_false_iff_ne.2 ?_
          rw [this]
          intro hgg
          exact hnotg (hgg ▸ hg')
        simp [hne]
    have hmap : (G.map (fun g' => sumKm (l.filter (fun r => key r == g')))).sum =
        (G.map (fun g' =>
          sumKm ((l.filter (fun r => !(key r == g))).filter (fun r => key r == g')))).sum := by
      refine congrArg List.sum (List.map_congr_left ?_)
      intro g' hg'
      exact congrArg sumKm (hstep g' hg')
    have hcov : ∀ r ∈ l.filter (fun r => !(key r == g)), key r ∈ G := by
      intro r hr
      have hm := List.mem_filter.1 hr
      have hkey := hl r hm.1
      have : key r ≠ g := by simpa using hm.2
      simpa [this] using hkey
    calc ((g :: G).map (fun g' => sumKm (l.filter (fun r => key r == g')))).sum
        = sumKm (l.filter (fun r => key r == g)) +
            (G.map (fun g' => sumKm (l.filter (fun r => key r == g')))).sum := by simp
      _ = sumKm (l.filter (fun r => key r == g)) +
            sumKm (l.filter (fun r => !(key r == g))) := by
          rw [hmap, ih (l.filter (fun r => !(key r == g))) hG' hcov]
      _ = sumKm l := sumKm_filter_partition _ l

/-! ### Lemmas about `catMap` -/

theorem catMap_append (f : α → List β) (l₁ l₂ : List α) :
    catMap f (l₁ ++ l₂) = catMap f l₁ ++ catMap f l₂ := by
  induction l₁ with
  | nil => rfl
  | cons a l ih => simp [catMap, ih]

theorem mem_catMap {f : α → List β} {b : β} :
    ∀ {l : List α}, b ∈ catMap f l ↔ ∃ a ∈ l, b ∈ f a := by
  intro l
  induction l with
  | nil => simp [catMap]
  | cons a l ih => simp [catMap, ih]

theorem filter_catMap (p : β → Bool) (f : α → List β) :
    ∀ l : List α, (catMap f l).filter p = catMap (fun a => (f a).filter p) l := by
  intro l
  induction l with
  | nil => rfl
  | cons a l ih => simp [catMap, List.filter_append, ih]

theorem sum_map_catMap (f : α → List β) (h : β → ℚ) :
    ∀ l : List α, ((catMap f l).map h).sum = (l.map (fun a => ((f a).map h).sum)).sum := by
  intro l
  induction l with
  | nil => rfl
  | cons a l ih => simp [catMap, ih]

/-! ### Prefixes of the canonical week order -/

theorem takeWhile_filter_comm (p : String → Bool) (w : String) (hw : p w = true) :
    ∀ W : List String,
      (W.filter p).takeWhile (fun x => x != w) =
        (W.takeWhile (fun x => x != w)).filter p := by
  intro W
  induction W with
  | nil => rfl
  | cons x W ih =>
    by_cases hx : x = w
    · subst hx
      simp [List.filter_cons, hw, List.takeWhile_cons]
    · have hbne : (x != w) = true := by simpa using hx
      cases hp : p x with
      | true => simp [List.filter_cons, hp, List.takeWhile_cons, hbne, ih]
      | false => simp [List.filter_cons, hp, List.takeWhile_cons, hbne, ih]

theorem sum_map_filter_of_zero (f : String → ℚ) (p : String → Bool) :
    ∀ W : List String, (∀ w ∈ W, p w = false → f w = 0) →
      ((W.filter p).map f).sum = (W.map f).sum := by
  intro W
  induction W with
  | nil => simp
  | cons x W ih =>
    intro h
    have hW : ∀ w ∈ W, p w = false → f w = 0 := fun w hw => h w (by simp [hw])
    cases hp : p x with
    | true => simp [List.filter_cons, hp, ih hW]
    | false => simp [List.filter_cons, hp, ih hW, h x (by simp) hp]

/-! ### The week-string column -/

theorem challengeKwsStr_nodup : CHALLENGE_KWS_STR.Nodup := by decide

theorem append_dot0_ne_nan (s : String) : s ++ ".0" ≠ "nan" := by
  intro h
  have hd : s.data ++ ['.', '0'] = ("nan" : String).data := by
    rw [← h]
    cases s
    rfl
  have hn : ("nan" : String).data = ['n', 'a', 'n'] := by decide
  rw [hn] at hd
  have hlen := congrArg List.length hd
  simp at hlen
  obtain ⟨c, hc⟩ := List.length_eq_one.1 hlen
  rw [hc] at hd
  simp only [List.cons_append, List.nil_append, List.cons.injEq] at hd
  exact absurd hd.2.1 (by decide)

theorem kwStrOf_of_none {rows : List Row} {r : Row} (hr : r.kw = none) :
    kwStrOf rows r = "nan" := by
  unfold kwStrOf
  split <;> simp [hr]

theorem all_isSome_eq_false {rows : List Row} (hex : ∃ x ∈ rows, x.kw = none) :
    rows.all (fun x => x.kw.isSome) = false := by
  obtain ⟨x, hx, hxn⟩ := hex
  refine Bool.eq_false_iff.2 ?_
  intro hall
  have := List.all_eq_true.1 hall x hx
  rw [hxn] at this
  simp at this

theorem kwStrOf_of_some_of_exists_none {rows : List Row} {r : Row} {n : Int}
    (hex : ∃ x ∈ rows, x.kw = none) (hr : r.kw = some n) :
    kwStrOf rows r = toString n ++ ".0" := by
  unfold kwStrOf
  rw [all_isSome_eq_false hex]
  simp [hr]

theorem mem_challengeRows {rows : List Row} {r : Row} :
    r ∈ challengeRows rows ↔ r ∈ rows ∧ kwStrOf rows r ∈ CHALLENGE_KWS_STR := by
  unfold challengeRows
  simp [List.mem_filter, List.contains, List.elem_iff]

theorem challengeRows_subset {rows : List Row} {r : Row} (h : r ∈ challengeRows rows) :
    r ∈ rows := (mem_challengeRows.1 h).1

/-! ### The per-group cumulative blocks -/

theorem observedWeeks_nodup (rows : List Row) (g : String) : (observedWeeks rows g).Nodup :=
  challengeKwsStr_nodup.filter _

theorem observedWeeks_spec {rows : List Row} {g w : String} :
    w ∈ observedWeeks rows g ↔ w ∈ CHALLENGE_KWS_STR ∧
      ((challengeRows rows).any (fun r => r.gruppe == g && kwStrOf rows r == w)) = true := by
  unfold observedWeeks
  exact List.mem_filter

theorem groupWeekKm_eq_zero {rows : List Row} {g w : String}
    (h : ((challengeRows rows).any (fun r => r.gruppe == g && kwStrOf rows r == w)) = false) :
    groupWeekKm rows g w = 0 := by
  unfold groupWeekKm
  have : (challengeRows rows).filter (fun r => r.gruppe == g && kwStrOf rows r == w) = [] := by
    rw [List.filter_eq_nil_iff]
    intro r hr
    have := List.any_eq_false.1 h r hr
    simpa using this
  rw [this]
  rfl

theorem cumEntriesAux_map_kwStr (rows : List Row) (g : String) :
    ∀ (ws : List String) (acc : ℚ), (cumEntriesAux rows g acc ws).map GWEntry.kwStr = ws := by
  intro ws
  induction ws with
  | nil => intro acc; rfl
  | cons w ws ih => intro acc; simp [cumEntriesAux, ih]

theorem cumEntriesAux_gruppe {rows : List Row} {g : String} :
    ∀ {ws : List String} {acc : ℚ} {e : GWEntry},
      e ∈ cumEntriesAux rows g acc ws → e.gruppe = g := by
  intro ws
  induction ws with
  | nil => intro acc e he; simp [cumEntriesAux] at he
  | cons w ws ih =>
    intro acc e he
    simp only [cumEntriesAux, List.mem_cons] at he
    rcases he with he | he
    · subst he; rfl
    · exact ih he

theorem cumEntriesAux_kwStr_mem {rows : List Row} {g : String} :
    ∀ {ws : List String} {acc : ℚ} {e : GWEntry},
      e ∈ cumEntriesAux rows g acc ws → e.kwStr ∈ ws := by
  intro ws
  induction ws with
  | nil => intro acc e he; simp [cumEntriesAux] at he
  | cons w ws ih =>
    intro acc e he
    simp only [cumEntriesAux, List.mem_cons] at he
    rcases he with he | he
    · subst he; simp
    · exact List.mem_cons_of_mem w (ih he)

theorem cumEntriesAux_km {rows : List Row} {g : String} :
    ∀ {ws : List String} {acc : ℚ} {e : GWEntry},
      e ∈ cumEntriesAux rows g acc ws → e.km = groupWeekKm rows g e.kwStr := by
  intro ws
  induction ws with
  | nil => intro acc e he; simp [cumEntriesAux] at he
  | cons w ws ih =>
    intro acc e he
    simp only [cumEntriesAux, List.mem_cons] at he
    rcases he with he | he
    · subst he; rfl
    · exact ih he

theorem cumEntriesAux_kumKm {rows : List Row} {g : String} :
    ∀ {ws : List String} {acc : ℚ} {e : GWEntry}, ws.Nodup →
      e ∈ cumEntriesAux rows g acc ws →
      e.kumKm = acc +
        (((ws.takeWhile (fun x => x != e.kwStr)) ++ [e.kwStr]).map (groupWeekKm rows g)).sum := by
  intro ws
  induction ws with
  | nil => intro acc e _ he; simp [cumEntriesAux] at he
  | cons w ws ih =>
    intro acc e hnd he
    simp only [cumEntriesAux, List.mem_cons] at he
    rcases he with he | he
    · subst he
      simp [List.takeWhile_cons]
    · have hk : e.kwStr ∈ ws := cumEntriesAux_kwStr_mem he
      have hwne : w ≠ e.kwStr := fun hh => (List.nodup_cons.1 hnd).1 (hh ▸ hk)
      have hbne : (w != e.kwStr) = true := by simpa using hwne
      rw [ih (List.nodup_cons.1 hnd).2 he]
      simp [List.takeWhile_cons, hbne]
      ring

theorem cumEntriesAux_getLast {rows : List Row} {g : String} :
    ∀ {ws : List String} {acc : ℚ} {e : GWEntry},
      (cumEntriesAux rows g acc ws).getLast? = some e →
      e.kumKm = acc + ((ws.map (groupWeekKm rows g)).sum) := by
  intro ws
  induction ws with
  | nil => intro acc e he; simp [cumEntriesAux] at he
  | cons w ws ih =>
    intro acc e he
    cases ws with
    | nil =>
      simp only [cumEntriesAux, List.getLast?_singleton, Option.some.injEq] at he
      subst he
      simp
    | cons w' ws' =>
      rw [show cumEntriesAux rows g acc (w :: w' :: ws') =
          (⟨g, w, groupWeekKm rows g w, acc + groupWeekKm rows g w⟩ : GWEntry) ::
            cumEntriesAux rows g (acc + groupWeekKm rows g w) (w' :: ws') from rfl,
        show cumEntriesAux rows g (acc + groupWeekKm rows g w) (w' :: ws') =
          (⟨g, w', groupWeekKm rows g w',
              acc + groupWeekKm rows g w + groupWeekKm rows g w'⟩ : GWEntry) ::
            cumEntriesAux rows g (acc + groupWeekKm rows g w + groupWeekKm rows g w') ws'
          from rfl, List.getLast?_cons_cons] at he
      rw [show (⟨g, w', groupWeekKm rows g w',
              acc + groupWeekKm rows g w + groupWeekKm rows g w'⟩ : GWEntry) ::
            cumEntriesAux rows g (acc + groupWeekKm rows g w + groupWeekKm rows g w') ws' =
          cumEntriesAux rows g (acc + groupWeekKm rows g w) (w' :: ws') from rfl] at he
      rw [ih he]
      simp
      ring

theorem cumEntriesAux_chain (rows : List Row) (g : String)
    (hnn : ∀ w, 0 ≤ groupWeekKm rows g w) :
    ∀ (ws : List String) (acc : ℚ),
      List.Chain' (fun a b : GWEntry => a.kumKm ≤ b.kumKm) (cumEntriesAux rows g acc ws) := by
  intro ws
  induction ws with
  | nil => intro acc; simp [cumEntriesAux]
  | cons w ws ih =>
    intro acc
    cases ws with
    | nil => simp [cumEntriesAux]
    | cons w' ws' =>
      rw [show cumEntriesAux rows g acc (w :: w' :: ws') =
          (⟨g, w, groupWeekKm rows g w, acc + groupWeekKm rows g w⟩ : GWEntry) ::
            cumEntriesAux rows g (acc + groupWeekKm rows g w) (w' :: ws') from rfl]
      rw [show cumEntriesAux rows g (acc + groupWeekKm rows g w) (w' :: ws') =
          (⟨g, w', groupWeekKm rows g w',
              acc + groupWeekKm rows g w + groupWeekKm rows g w'⟩ : GWEntry) ::
            cumEntriesAux rows g (acc + groupWeekKm rows g w + groupWeekKm rows g w') ws'
          from rfl]
      rw [List.chain'_cons]
      constructor
      · have := hnn w'
        simp
        linarith
      · have := ih (acc + groupWeekKm rows g w)
        rw [show cumEntriesAux rows g (acc + groupWeekKm rows g w) (w' :: ws') =
            (⟨g, w', groupWeekKm rows g w',
                acc + groupWeekKm rows g w + groupWeekKm rows g w'⟩ : GWEntry) ::
              cumEntriesAux rows g (acc + groupWeekKm rows g w + groupWeekKm rows g w') ws'
            from rfl] at this
        exact this

/-! ### Extracting the block of one group from the table -/

theorem groupsSorted_nodup (rows : List Row) : (groupsSorted rows).Nodup :=
  ((List.perm_insertionSort strLe _).nodup_iff).2 (List.nodup_dedup _)

theorem block_filter_self {rows : List Row} {g : String} {acc : ℚ} {ws : List String} :
    (cumEntriesAux rows g acc ws).filter (fun e => e.gruppe == g) =
      cumEntriesAux rows g acc ws :=
  List.filter_eq_self.2 (fun e he => by simp [cumEntriesAux_gruppe he])

theorem block_filter_other {rows : List Row} {g g' : String} {acc : ℚ} {ws : List String}
    (h : g' ≠ g) :
    (cumEntriesAux rows g' acc ws).filter (fun e => e.gruppe == g) = [] :=
  List.filter_eq_nil_iff.2 (fun e he => by simp [cumEntriesAux_gruppe he, h])

theorem catMap_filter_group (rows : List Row) (g : String) :
    ∀ (L : List String), L.Nodup →
      catMap (fun g' => (cumEntriesAux rows g' 0 (observedWeeks rows g')).filter
        (fun e => e.gruppe == g)) L =
      if g ∈ L then cumEntriesAux rows g 0 (observedWeeks rows g) else [] := by
  intro L
  induction L with
  | nil => intro _; simp [catMap]
  | cons a L ih =>
    intro hnd
    by_cases hag : a = g
    · subst hag
      have hnot : a ∉ L := (List.nodup_cons.1 hnd).1
      rw [show catMap (fun g' => (cumEntriesAux rows g' 0 (observedWeeks rows g')).filter
            (fun e => e.gruppe == a)) (a :: L) =
          (cumEntriesAux rows a 0 (observedWeeks rows a)).filter (fun e => e.gruppe == a) ++
            catMap (fun g' => (cumEntriesAux rows g' 0 (observedWeeks rows g')).filter
              (fun e => e.gruppe == a)) L from rfl]
      rw [block_filter_self, ih (List.nodup_cons.1 hnd).2]
      simp [hnot]
    · rw [show catMap (fun g' => (cumEntriesAux rows g' 0 (observedWeeks rows g')).filter
            (fun e => e.gruppe == g)) (a :: L) =
          (cumEntriesAux rows a 0 (observedWeeks rows a)).filter (fun e => e.gruppe == g) ++
            catMap (fun g' => (cumEntriesAux rows g' 0 (observedWeeks rows g')).filter
              (fun e => e.gruppe == g)) L from rfl]
      rw [block_filter_other hag, ih (List.nodup_cons.1 hnd).2]
      simp [List.mem_cons, Ne.symm hag]

theorem groupBlock (rows : List Row) (g : String) :
    (groupWeeklyTable rows).filter (fun e => e.gruppe == g) =
      if g ∈ groupsSorted rows then cumEntriesAux rows g 0 (observedWeeks rows g) else [] := by
  unfold groupWeeklyTable
  rw [filter_catMap]
  exact catMap_filter_group rows g _ (groupsSorted_nodup rows)



theorem block_week_slice {rows : List Row} {g : String} (w : String) :
    ∀ {ws : List String} {acc : ℚ}, ws.Nodup →
      (((cumEntriesAux rows g acc ws).filter (fun e => e.kwStr == w)).map GWEntry.km).sum =
        if w ∈ ws then groupWeekKm rows g w else 0 := by
  intro ws
  induction ws with
  | nil => intro acc _; simp [cumEntriesAux]
  | cons w' ws ih =>
    intro acc hnd
    rw [show cumEntriesAux rows g acc (w' :: ws) =
        (⟨g, w', groupWeekKm rows g w', acc + groupWeekKm rows g w'⟩ : GWEntry) ::
          cumEntriesAux rows g (acc + groupWeekKm rows g w') ws from rfl]
    by_cases hw : w' = w
    · subst hw
      have hnot : w' ∉ ws := (List.nodup_cons.1 hnd).1
      have htail : (cumEntriesAux rows g (acc + groupWeekKm rows g w') ws).filter
          (fun e => e.kwStr == w') = [] := by
        rw [List.filter_eq_nil_iff]
        intro e he
        have hmem := cumEntriesAux_kwStr_mem he
        simp only [beq_iff_eq]
        intro hEq
        exact hnot (hEq ▸ hmem)
      rw [List.filter_cons]
      simp [htail]
    · have hbeq : ((⟨g, w', groupWeekKm rows g w',
          acc + groupWeekKm rows g w'⟩ : GWEntry).kwStr == w) = false := by
        simp [hw]
      rw [List.filter_cons]
      simp only [hbeq]
      rw [if_neg (by simp)]
      rw [ih (List.nodup_cons.1 hnd).2]
      have hww : ¬ w = w' := fun h => hw h.symm
      simp [List.mem_cons, hww]

/-- C2 (amended): for every week in the Challenge Week Set, `weeklyTotal`
over the full table equals the sum over all groups of the per-group
per-week summed distances recorded in the group-cumulative table
(conservation of total distance on the challenge weeks).  For weeks
outside the set the two sides differ in general, see `c2_cex`. -/
theorem weeklyConservation (rows : List Row) (w : String) (hw : w ∈ CHALLENGE_KWS_STR) :
    weeklyTotal rows w = tableWeekKm rows w := by
  have hterm : ∀ g ∈ groupsSorted rows,
      (((cumEntriesAux rows g 0 (observedWeeks rows g)).filter
        (fun e => e.kwStr == w)).map GWEntry.km).sum = groupWeekKm rows g w := by
    intro g _
    rw [block_week_slice w (observedWeeks_nodup rows g)]
    by_cases hobs : w ∈ observedWeeks rows g
    · rw [if_pos hobs]
    · rw [if_neg hobs]
      have hany : ((challengeRows rows).any
          (fun r => r.gruppe == g && kwStrOf rows r == w)) = false := by
        cases hany : (challengeRows rows).any
            (fun r => r.gruppe == g && kwStrOf rows r == w) with
        | false => rfl
        | true => exact absurd (observedWeeks_spec.2 ⟨hw, hany⟩) hobs
      rw [groupWeekKm_eq_zero hany]
  have hall : (challengeRows rows).filter (fun r => kwStrOf rows r == w) =
      rows.filter (fun r => kwStrOf rows r == w) := by
    unfold challengeRows
    rw [List.filter_filter]
    refine List.filter_congr ?_
    intro r _
    cases hk : (kwStrOf rows r == w) with
    | false => simp
    | true =>
      have hkw : kwStrOf rows r = w := by simpa using hk
      have hc : CHALLENGE_KWS_STR.contains (kwStrOf rows r) = true := by
        rw [hkw]
        simpa [List.contains, List.elem_iff] using hw
      rw [hc]
      rfl
  have hcov : ∀ r ∈ (challengeRows rows).filter (fun r => kwStrOf rows r == w),
      r.gruppe ∈ groupsSorted rows := by
    intro r hr
    have hrc : r ∈ challengeRows rows := (List.mem_filter.1 hr).1
    unfold groupsSorted sortStrings
    rw [(List.perm_insertionSort strLe _).mem_iff, List.mem_dedup]
    exact List.mem_map_of_mem Row.gruppe hrc
  have hkeys := sum_over_keys Row.gruppe (groupsSorted rows)
    ((challengeRows rows).filter (fun r => kwStrOf rows r == w))
    (groupsSorted_nodup rows) hcov
  have hterm2 : ∀ g ∈ groupsSorted rows,
      sumKm (((challengeRows rows).filter (fun r => kwStrOf rows r == w)).filter
        (fun r => r.gruppe == g)) = groupWeekKm rows g w := by
    intro g _
    rw [List.filter_filter]
    rfl
  calc weeklyTotal rows w
      = sumKm ((challengeRows rows).filter (fun r => kwStrOf rows r == w)) := by
        unfold weeklyTotal
        rw [hall]
    _ = ((groupsSorted rows).map (fun g =>
          sumKm (((challengeRows rows).filter (fun r => kwStrOf rows r == w)).filter
            (fun r => r.gruppe == g)))).sum := hkeys.symm
    _ = ((groupsSorted rows).map (fun g => groupWeekKm rows g w)).sum := by
        exact congrArg List.sum (List.map_congr_left hterm2)
    _ = tableWeekKm rows w := by
        unfold tableWeekKm groupWeeklyTable
        rw [filter_catMap, sum_map_catMap]
        exact (congrArg List.sum (List.map_congr_left hterm)).symm

/-- C1: every entry of the group-cumulative table carries as cumulative
value the sum of the per-week summed distances of its group over all
canonical weeks up to and including its own week, in Challenge Week Set
order (weeks 45..52 then 1..10); and within each group the entries of the
table appear in canonical week order (a sublist of the canonical
sequence), not in numeric or lexical order. -/
theorem groupCumulative_canonical (rows : List Row) (e : GWEntry)
    (he : e ∈ groupWeeklyTable rows) :
    e.kumKm = (((CHALLENGE_KWS_STR.takeWhile (fun x => x != e.kwStr)) ++ [e.kwStr]).map
        (groupWeekKm rows e.gruppe)).sum ∧
    ∀ g, (((groupWeeklyTable rows).filter (fun x => x.gruppe == g)).map GWEntry.kwStr).Sublist
      CHALLENGE_KWS_STR := by
  constructor
  · unfold groupWeeklyTable at he
    obtain ⟨g, hg, he'⟩ := mem_catMap.1 he
    have hgr : e.gruppe = g := cumEntriesAux_gruppe he'
    have hkum := cumEntriesAux_kumKm (observedWeeks_nodup rows g) he'
    have hkmem : e.kwStr ∈ observedWeeks rows g := cumEntriesAux_kwStr_mem he'
    have hp : ((challengeRows rows).any
        (fun r => r.gruppe == g && kwStrOf rows r == e.kwStr)) = true :=
      (observedWeeks_spec.1 hkmem).2
    have htw : (observedWeeks rows g).takeWhile (fun x => x != e.kwStr) =
        (CHALLENGE_KWS_STR.takeWhile (fun x => x != e.kwStr)).filter
          (fun w => (challengeRows rows).any (fun r => r.gruppe == g && kwStrOf rows r == w)) :=
      takeWhile_filter_comm _ e.kwStr hp CHALLENGE_KWS_STR
    have hzero : ∀ w ∈ CHALLENGE_KWS_STR.takeWhile (fun x => x != e.kwStr),
        ((challengeRows rows).any (fun r => r.gruppe == g && kwStrOf rows r == w)) = false →
        groupWeekKm rows g w = 0 := fun w _ hw => groupWeekKm_eq_zero hw
    have hsum := sum_map_filter_of_zero (groupWeekKm rows g) _ _ hzero
    rw [hgr, hkum, htw]
    rw [List.map_append, List.sum_append, List.map_append, List.sum_append, hsum]
    ring
  · intro g
    rw [groupBlock]
    by_cases hmem : g ∈ groupsSorted rows
    · rw [if_pos hmem, cumEntriesAux_map_kwStr]
      exact List.filter_sublist _
    · rw [if_neg hmem]
      simp

/-- Witness for C1 at a concrete table: the group with data only in weeks
46 and 1 gets its week-1 entry after the week-46 entry, with cumulative 7. -/
theorem c1_witness :
    ((⟨"X", "1", 2, 7⟩ : GWEntry) ∈ groupWeeklyTable c1rows) ∧
    (⟨"X", "1", 2, 7⟩ : GWEntry).kumKm =
      (((CHALLENGE_KWS_STR.takeWhile (fun x => x != (⟨"X", "1", 2, 7⟩ : GWEntry).kwStr)) ++
        [(⟨"X", "1", 2, 7⟩ : GWEntry).kwStr]).map
          (groupWeekKm c1rows (⟨"X", "1", 2, 7⟩ : GWEntry).gruppe)).sum := by
  have hmem : (⟨"X", "1", 2, 7⟩ : GWEntry) ∈ groupWeeklyTable c1rows := by
    norm_num +decide [c1rows, groupWeeklyTable, catMap, cumEntriesAux, observedWeeks,
      groupsSorted, sortStrings, strLe, strKey, challengeRows, kwStrOf, groupWeekKm, sumKm,
      kmVal, CHALLENGE_KWS_STR, CHALLENGE_KWS]
  exact ⟨hmem, (groupCumulative_canonical c1rows _ hmem).1⟩


/-- Counterexample to C2 as stated: a row in week 20 (outside the
Challenge Week Set) is counted by `weeklyTotal` but appears nowhere in the
group-cumulative table, so the week-by-week equality fails at week 20. -/
theorem c2_cex : weeklyTotal c2badRows "20" ≠ tableWeekKm c2badRows "20" := by
  norm_num +decide [c2badRows, weeklyTotal, tableWeekKm, groupWeeklyTable, catMap,
    cumEntriesAux, observedWeeks, groupsSorted, sortStrings, strLe, strKey, challengeRows,
    kwStrOf, groupWeekKm, sumKm, kmVal, CHALLENGE_KWS_STR, CHALLENGE_KWS]


/-- Witness for the amended C2 at a concrete table and week 45. -/
theorem c2_witness : "45" ∈ CHALLENGE_KWS_STR ∧
    weeklyTotal c2rows "45" = tableWeekKm c2rows "45" :=
  ⟨by decide, weeklyConservation c2rows "45" (by decide)⟩


/-- C3: evaluation of the tally at the failing input.  Runner A has two
rows, one with an unparseable distance, yet `runner_runs` counts only 1
for A (pandas `count` skips NaN), so A is forced into a bogus tie with B
instead of being the sole record holder with 2 entries. -/
theorem c3_eval : runnerRuns c3rows "A" = 1 ∧
    (c3rows.filter (fun r => r.name == "A")).length = 2 ∧
    runnersWithMaxRuns c3rows = ["A", "B"] := by
  decide


/-- C6: evaluation at the failing input.  A table whose longest run has an
unparseable date passes the no-data guard (total distance 10, nonzero) but
the records section raises in `strftime` on the NaT date instead of
rendering. -/
theorem c6_eval : recordsSection c6rows = Except.error "NaTType does not support strftime" ∧
    sumKm c6rows ≠ 0 := by
  constructor
  · rfl
  · norm_num [c6rows, sumKm, kmVal]

/-- C8: applying the filter engine with all three dimensions set to their
sentinels (`Alle`, `Alle`, `Gesamt`) returns the input table row for row. -/
theorem filters_identity (rows : List Row) :
    applyFilters rows "Alle" "Alle" KwSel.gesamt = rows := by
  simp [applyFilters]


/-- Counterexample to C5 as stated: on a one-row table the week selector
of the code offers the full fixed Challenge Week Set, not the distinct
week values present in the group- and runner-filtered table. -/
theorem c5_cex : kwOptions ≠ kwOptionsPerClaim c5badRows "Alle" "Alle" := by
  decide


theorem groupWeekKm_nonneg {rows : List Row} (hpos : ∀ r ∈ rows, 0 ≤ kmVal r)
    (g w : String) : 0 ≤ groupWeekKm rows g w := by
  refine sumKm_nonneg ?_
  intro r hr
  exact hpos r (challengeRows_subset (List.mem_filter.1 hr).1)

/-- C4 (amended): with non-negative distances, the cumulative sums of each
group are non-decreasing along the canonical week order, and the final
cumulative value of a group equals its total distance over the rows whose
week lies in the Challenge Week Set; that value equals the `groupTotals`
entry of the group whenever all rows of the group lie in the Challenge
Week Set.  Without that side condition the equality fails, see `c4_cex`. -/
theorem groupCumulative_monotone_total (rows : List Row)
    (hpos : ∀ r ∈ rows, 0 ≤ kmVal r) (g : String) :
    List.Chain' (· ≤ ·)
      (((groupWeeklyTable rows).filter (fun e => e.gruppe == g)).map GWEntry.kumKm) ∧
    ∀ e, ((groupWeeklyTable rows).filter (fun e => e.gruppe == g)).getLast? = some e →
      (e.kumKm = sumKm ((challengeRows rows).filter (fun r => r.gruppe == g)) ∧
       ((∀ r ∈ rows, r.gruppe = g → kwStrOf rows r ∈ CHALLENGE_KWS_STR) →
         e.kumKm = groupTotals rows g)) := by
  have hnn : ∀ w, 0 ≤ groupWeekKm rows g w := groupWeekKm_nonneg hpos g
  constructor
  · rw [groupBlock]
    by_cases hmem : g ∈ groupsSorted rows
    · rw [if_pos hmem]
      exact (List.chain'_map GWEntry.kumKm).2 (cumEntriesAux_chain rows g hnn _ 0)
    · rw [if_neg hmem]
      simp
  · intro e he
    rw [groupBlock] at he
    by_cases hmem : g ∈ groupsSorted rows
    · rw [if_pos hmem] at he
      have hlast := cumEntriesAux_getLast he
      have hzero : ∀ w ∈ CHALLENGE_KWS_STR,
          ((challengeRows rows).any (fun r => r.gruppe == g && kwStrOf rows r == w)) = false →
          groupWeekKm rows g w = 0 := fun w _ hw => groupWeekKm_eq_zero hw
      have hsum := sum_map_filter_of_zero (groupWeekKm rows g) _ CHALLENGE_KWS_STR hzero
      have hcov : ∀ r ∈ (challengeRows rows).filter (fun r => r.gruppe == g),
          kwStrOf rows r ∈ CHALLENGE_KWS_STR := by
        intro r hr
        exact (mem_challengeRows.1 (List.mem_filter.1 hr).1).2
      have hkeys := sum_over_keys (kwStrOf rows) CHALLENGE_KWS_STR
        ((challengeRows rows).filter (fun r => r.gruppe == g)) challengeKwsStr_nodup hcov
      have hterm : ∀ w ∈ CHALLENGE_KWS_STR,
          sumKm (((challengeRows rows).filter (fun r => r.gruppe == g)).filter
            (fun r => kwStrOf rows r == w)) = groupWeekKm rows g w := by
        intro w _
        rw [List.filter_filter]
        unfold groupWeekKm
        refine congrArg sumKm (List.filter_congr ?_)
        intro r _
        exact Bool.and_comm _ _
      have hfirst : e.kumKm = sumKm ((challengeRows rows).filter (fun r => r.gruppe == g)) := by
        rw [hlast]
        rw [show (observedWeeks rows g).map (groupWeekKm rows g) =
            (CHALLENGE_KWS_STR.filter (fun w => (challengeRows rows).any
              (fun r => r.gruppe == g && kwStrOf rows r == w))).map (groupWeekKm rows g)
            from rfl]
        rw [hsum, ← List.map_congr_left hterm, hkeys]
        ring
      refine ⟨hfirst, ?_⟩
      intro hin
      have hfil : (challengeRows rows).filter (fun r => r.gruppe == g) =
          rows.filter (fun r => r.gruppe == g) := by
        unfold challengeRows
        rw [List.filter_filter]
        refine List.filter_congr ?_
        intro r hr
        cases hgr : (r.gruppe == g) with
        | false => simp
        | true =>
          have hg : r.gruppe = g := by simpa using hgr
          have hc : CHALLENGE_KWS_STR.contains (kwStrOf rows r) = true := by
            have := hin r hr hg
            simpa [List.contains, List.elem_iff] using this
          rw [hc]
          rfl
      rw [hfirst, hfil]
      rfl
    · rw [if_neg hmem] at he
      simp at he


/-- Counterexample to C4 as stated: group X has rows in weeks 20 and 45;
its final cumulative value is 3 while its `groupTotals` entry is 8. -/
theorem c4_cex :
    (((groupWeeklyTable c4badRows).filter (fun e => e.gruppe == "X")).getLast? =
      some ⟨"X", "45", 3, 3⟩) ∧ groupTotals c4badRows "X" = 8 ∧ (3 : ℚ) ≠ 8 := by
  refine ⟨?_, ?_, by norm_num⟩
  · norm_num +decide [c4badRows, groupWeeklyTable, catMap, cumEntriesAux, observedWeeks,
      groupsSorted, sortStrings, strLe, strKey, challengeRows, kwStrOf, groupWeekKm, sumKm,
      kmVal, CHALLENGE_KWS_STR, CHALLENGE_KWS]
  · norm_num +decide [c4badRows, groupTotals, sumKm, kmVal]


/-- Witness for the amended C4 at a concrete non-negative table. -/
theorem c4_witness : (∀ r ∈ c4rows, 0 ≤ kmVal r) ∧
    List.Chain' (· ≤ ·)
      (((groupWeeklyTable c4rows).filter (fun e => e.gruppe == "W")).map GWEntry.kumKm) :=
  ⟨by norm_num [c4rows, kmVal],
   (groupCumulative_monotone_total c4rows (by norm_num [c4rows, kmVal]) "W").1⟩


theorem sortStrings_sorted (l : List String) : List.Sorted strLe (sortStrings l) :=
  List.sorted_insertionSort strLe l

theorem sortStrings_mem {s : String} {l : List String} : s ∈ sortStrings l ↔ s ∈ l :=
  (List.perm_insertionSort strLe l).mem_iff

/-- C5 (amended): the group selector offers `Alle` followed by the sorted
distinct groups of the full table; the runner selector offers `Alle`
followed by the sorted distinct names of the group-filtered table; but the
week selector offers the `Gesamt` sentinel followed by the fixed Challenge
Week Set, independent of the filtered table. -/
theorem selector_options (rows : List Row) (g : String) :
    ((groupOptions rows).head? = some "Alle" ∧
     List.Sorted strLe (groupOptions rows).tail ∧
     (groupOptions rows).tail.Nodup ∧
     (∀ s, s ∈ (groupOptions rows).tail ↔ ∃ r ∈ rows, r.gruppe = s)) ∧
    ((runnerOptions rows g).head? = some "Alle" ∧
     List.Sorted strLe (runnerOptions rows g).tail ∧
     (runnerOptions rows g).tail.Nodup ∧
     (∀ s, s ∈ (runnerOptions rows g).tail ↔ ∃ r ∈ groupFiltered rows g, r.name = s)) ∧
    kwOptions = none :: CHALLENGE_KWS.map some := by
  refine ⟨⟨rfl, ?_, ?_, ?_⟩, ⟨rfl, ?_, ?_, ?_⟩, rfl⟩
  · simp only [groupOptions, List.tail_cons]
    exact sortStrings_sorted _
  · simp only [groupOptions, List.tail_cons]
    exact ((List.perm_insertionSort strLe _).nodup_iff).2 (List.nodup_dedup _)
  · intro s
    simp only [groupOptions, List.tail_cons]
    rw [sortStrings_mem, List.mem_dedup, List.mem_map]
  · simp only [runnerOptions, List.tail_cons]
    exact sortStrings_sorted _
  · simp only [runnerOptions, List.tail_cons]
    exact ((List.perm_insertionSort strLe _).nodup_iff).2 (List.nodup_dedup _)
  · intro s
    simp only [runnerOptions, List.tail_cons]
    rw [sortStrings_mem, List.mem_dedup, List.mem_map]


/-- Witness for the amended C5 at a concrete table. -/
theorem c5_witness : kwOptions = none :: CHALLENGE_KWS.map some :=
  (selector_options c5rows "Alle").2.2

theorem foldr_max_mem : ∀ (l : List ℕ), l ≠ [] → l.foldr max 0 ∈ l := by
  intro l
  induction l with
  | nil => intro h; exact absurd rfl h
  | cons a l ih =>
    intro _
    cases l with
    | nil => simp
    | cons b t =>
      have hfold : (a :: b :: t).foldr max 0 = max a ((b :: t).foldr max 0) := rfl
      rcases max_choice a ((b :: t).foldr max 0) with h | h
      · rw [hfold, h]
        exact List.mem_cons_self a _
      · rw [hfold, h]
        exact List.mem_cons_of_mem a (ih (by simp))

/-- C7: `runners_with_max_runs` contains exactly the runners whose tally
(as computed by the code, see C3) equals the maximum observed tally - on a
tie every tied name is listed - and it is never empty on a nonempty
table. -/
theorem mostProlific_ties (rows : List Row) :
    (∀ n, n ∈ runnersWithMaxRuns rows ↔
       n ∈ namesSorted rows ∧ runnerRuns rows n = mostRuns rows) ∧
    (rows ≠ [] → runnersWithMaxRuns rows ≠ []) := by
  constructor
  · intro n
    unfold runnersWithMaxRuns
    rw [List.mem_filter]
    simp
  · intro hne
    have hnames : namesSorted rows ≠ [] := by
      cases rows with
      | nil => exact absurd rfl hne
      | cons r t =>
        have hm : r.name ∈ namesSorted (r :: t) := by
          unfold namesSorted
          rw [sortStrings_mem, List.mem_dedup]
          exact List.mem_map_of_mem Row.name (by simp)
        exact List.ne_nil_of_mem hm
    have hmap : ((namesSorted rows).map (fun n => runnerRuns rows n)) ≠ [] := by
      simpa using hnames
    have hmem : mostRuns rows ∈ (namesSorted rows).map (fun n => runnerRuns rows n) :=
      foldr_max_mem _ hmap
    obtain ⟨n, hn, hrn⟩ := List.mem_map.1 hmem
    have : n ∈ runnersWithMaxRuns rows := by
      unfold runnersWithMaxRuns
      rw [List.mem_filter]
      exact ⟨hn, by simp [hrn]⟩
    exact List.ne_nil_of_mem this


/-- Witness for C7 at a concrete table with two tied runners. -/
theorem c7_witness : c7rows ≠ [] ∧ runnersWithMaxRuns c7rows ≠ [] :=
  ⟨by decide, (mostProlific_ties c7rows).2 (by decide)⟩


theorem le_foldl_max {α : Type} [LinearOrder α] :
    ∀ (l : List α) (b : α), b ≤ l.foldl max b := by
  intro l
  induction l with
  | nil => intro b; exact le_refl b
  | cons x l ih =>
    intro b
    calc b ≤ max b x := le_max_left b x
      _ ≤ (x :: l).foldl max b := by
        rw [List.foldl_cons]
        exact ih (max b x)

theorem mem_le_foldl_max {α : Type} [LinearOrder α] :
    ∀ {l : List α} {x : α} (b : α), x ∈ l → x ≤ l.foldl max b := by
  intro l
  induction l with
  | nil => intro x b hx; simp at hx
  | cons y l ih =>
    intro x b hx
    rcases List.mem_cons.1 hx with h | h
    · subst h
      calc x ≤ max b x := le_max_right b x
        _ ≤ (x :: l).foldl max b := by
          rw [List.foldl_cons]
          exact le_foldl_max l (max b x)
    · rw [List.foldl_cons]
      exact ih (max b y) h

theorem foldl_max_choice {α : Type} [LinearOrder α] :
    ∀ (l : List α) (b : α), l.foldl max b = b ∨ l.foldl max b ∈ l := by
  intro l
  induction l with
  | nil => intro b; exact Or.inl rfl
  | cons x l ih =>
    intro b
    rw [List.foldl_cons]
    rcases ih (max b x) with h | h
    · rcases max_choice b x with hm | hm
      · exact Or.inl (by rw [h, hm])
      · exact Or.inr (by rw [h, hm]; exact List.mem_cons_self x l)
    · exact Or.inr (List.mem_cons_of_mem x h)

theorem maxRanked_mem_le {l : List (String × ℚ)} {p : String × ℚ} (hp : p ∈ l) :
    p.2 ≤ maxRanked l := by
  unfold maxRanked
  cases l with
  | nil => simp at hp
  | cons q t =>
    simp only [List.map_cons]
    rcases List.mem_cons.1 hp with h | h
    · subst h
      exact le_foldl_max _ _
    · exact mem_le_foldl_max q.2 (List.mem_map_of_mem Prod.snd h)

theorem maxRanked_attained {l : List (String × ℚ)} (h : l ≠ []) :
    ∃ p ∈ l, p.2 = maxRanked l := by
  unfold maxRanked
  cases l with
  | nil => exact absurd rfl h
  | cons q t =>
    simp only [List.map_cons]
    rcases foldl_max_choice (t.map Prod.snd) q.2 with hc | hc
    · exact ⟨q, List.mem_cons_self q t, hc.symm⟩
    · obtain ⟨p, hp, hps⟩ := List.mem_map.1 hc
      exact ⟨p, List.mem_cons_of_mem q hp, hps⟩

/-- C9: the runner leaderboard keeps at most 10 entries while the team
leaderboard retains every group present in the filtered table; both are
sorted descending by total distance; each progress-bar scale is the
maximum total of the currently displayed ranking (attained by some
displayed entry and bounding all of them) and defaults to 100 when the
ranking is empty. -/
theorem leaderboards (fRows : List Row) :
    (runnerRanking fRows).length ≤ 10 ∧
    (∀ g, (∃ r ∈ fRows, r.gruppe = g) → ∃ p ∈ groupRanking fRows, p.1 = g) ∧
    List.Sorted rankLe (groupRanking fRows) ∧
    List.Sorted rankLe (runnerRanking fRows) ∧
    (∀ p ∈ groupRanking fRows, p.2 ≤ maxGroupKm fRows) ∧
    (groupRanking fRows ≠ [] → ∃ p ∈ groupRanking fRows, p.2 = maxGroupKm fRows) ∧
    (groupRanking fRows = [] → maxGroupKm fRows = 100) ∧
    (∀ p ∈ runnerRanking fRows, p.2 ≤ maxRunnerKm fRows) ∧
    (runnerRanking fRows ≠ [] → ∃ p ∈ runnerRanking fRows, p.2 = maxRunnerKm fRows) ∧
    (runnerRanking fRows = [] → maxRunnerKm fRows = 100) := by
  refine ⟨List.length_take_le 10 _, ?_, ?_, ?_, ?_, ?_, ?_, ?_, ?_, ?_⟩
  · intro g hg
    obtain ⟨r, hr, hrg⟩ := hg
    have h1 : g ∈ sortStrings ((fRows.map Row.gruppe).dedup) := by
      rw [sortStrings_mem, List.mem_dedup]
      exact hrg ▸ List.mem_map_of_mem Row.gruppe hr
    have h2 : (g, sumKm (fRows.filter (fun r => r.gruppe == g))) ∈ groupRanking fRows := by
      unfold groupRanking
      rw [(List.perm_insertionSort rankLe _).mem_iff]
      exact List.mem_map_of_mem _ h1
    exact ⟨_, h2, rfl⟩
  · exact List.sorted_insertionSort rankLe _
  · exact List.Pairwise.sublist (List.take_sublist 10 _)
      (List.sorted_insertionSort rankLe _)
  · intro p hp
    exact maxRanked_mem_le hp
  · intro h
    exact maxRanked_attained h
  · intro h
    unfold maxGroupKm
    rw [h]
    rfl
  · intro p hp
    exact maxRanked_mem_le hp
  · intro h
    exact maxRanked_attained h
  · intro h
    unfold maxRunnerKm
    rw [h]
    rfl


/-- Witness for C9 at a concrete table. -/
theorem c9_witness : (∃ r ∈ c9rows, r.gruppe = "X") ∧
    (∃ p ∈ groupRanking c9rows, p.1 = "X") ∧ (runnerRanking c9rows).length ≤ 10 :=
  ⟨by decide, (leaderboards c9rows).2.1 "X" (by decide), (leaderboards c9rows).1⟩

/-- C10: when some week fails to parse, normalization maps that week to
the literal string nan, `weeklyTotal` at the nan bucket sums exactly the
distances of those rows, nan is not in the Challenge Week Set, and no such
row survives the challenge-week restriction feeding the group-cumulative
table. -/
theorem nan_week_bucket (rows : List Row) (h : ∃ r ∈ rows, r.kw = none) :
    (∀ r ∈ rows, r.kw = none → kwStrOf rows r = "nan") ∧
    weeklyTotal rows "nan" = sumKm (rows.filter (fun r => r.kw.isNone)) ∧
    "nan" ∉ CHALLENGE_KWS_STR ∧
    ∀ r ∈ challengeRows rows, r.kw ≠ none := by
  have hnotin : "nan" ∉ CHALLENGE_KWS_STR := by decide
  refine ⟨fun r _ hr => kwStrOf_of_none hr, ?_, hnotin, ?_⟩
  · unfold weeklyTotal
    refine congrArg sumKm (List.filter_congr ?_)
    intro r hr
    cases hkw : r.kw with
    | none =>
      rw [kwStrOf_of_none hkw]
      simp [hkw]
    | some n =>
      rw [kwStrOf_of_some_of_exists_none h hkw]
      have hne : toString n ++ ".0" ≠ "nan" := append_dot0_ne_nan _
      simp [hkw, hne]
  · intro r hr hrn
    have hmem := (mem_challengeRows.1 hr).2
    rw [kwStrOf_of_none hrn] at hmem
    exact hnotin hmem


/-- Witness for C10 at a concrete table with one unparseable week. -/
theorem c10_witness : (∃ r ∈ c10rows, r.kw = none) ∧
    weeklyTotal c10rows "nan" = sumKm (c10rows.filter (fun r => r.kw.isNone)) :=
  ⟨by decide, (nan_week_bucket c10rows (by decide)).2.1⟩

end Lauf
